import Mathlib

/-!
Verification of the gitdown directive-expansion engine (src/dist/gitdown.js).

The engine is shallowly embedded: document text is `List Char`, the directive
registry is a `List Command`, and the three operations `parse`, `execute` and
`play` (exposed through `Gitdown.get`, modelled here as `run`) are translated
line by line from the source.  Two platform primitives the source calls are
taken as parameters of the model, since they are not code of this repository:

* `JSON.parse` becomes a parameter `jp : JsonParse`; an output JSON object is
  modelled as an association list of string keys and string values (only the
  `"gitdown"` discriminator value is ever consumed by the engine itself, the
  other values travel opaquely into `parameters`);
* the helper registry `Gitdown.helpers` becomes a parameter `hs : HelperReg`
  mapping a name to an optional `Helper` (a weight plus an invocation
  function), `none` modelling JavaScript `undefined`.

JavaScript-specific behaviours are embedded faithfully: the global regex
replace of `parser.parse` is the left-to-right scan `parseAux`; the default
`Array.prototype.sort` used on weights compares decimal string images
(`lexLe` on `Nat.repr`); `String.prototype.replace` with a string pattern
replaces the first occurrence and expands the `$$`/`$&`-style patterns of the
replacement string (`jsReplace`/`expandRepl`); reading an undeclared
identifier throws a ReferenceError (`readIdent` for the `Gitdown` guard).
-/

/-- Errors the engine can raise: `syntaxError` models the exception thrown by
`JSON.parse` on invalid input (line 170 of the source), `typeError` models the
TypeError thrown by `command.helper.weight()` when `command.helper` is
`undefined` (line 219). -/
inductive Err where
  | syntaxError
  | typeError
deriving DecidableEq, Repr

/-- A helper capability from the registry: a weight and an invocation
function receiving the current document text and the directive parameters. -/
structure Helper where
  weight : Nat
  run : List Char → List (String × String) → List Char

/-- One entry of the command registry, as pushed by `parser.parse`
(lines 178-184 of the source).  `name` is `none` when the payload lacks the
`"gitdown"` key (JavaScript `undefined`); `helper` is `none` when the registry
lookup found nothing. -/
structure Command where
  bindingIndex : Nat
  name : Option String
  parameters : List (String × String)
  helper : Option Helper
  executed : Bool

/-- The state object threaded by `parser.play`: the markdown text, the command
registry, the change flag of the most recent parse, and the parser-wide
`bindingIndex` counter (a closure variable in the source, threaded explicitly
here). -/
structure PState where
  markdown : List Char
  commands : List Command
  change : Bool
  bindingIndex : Nat

instance : Inhabited PState := ⟨⟨[], [], false, 0⟩⟩

/-- Model of `JSON.parse` restricted to what the engine consumes: `none` for a
throw, otherwise the key/value pairs of the parsed object. -/
abbrev JsonParse := List Char → Option (List (String × String))

/-- Model of the helper registry `Gitdown.helpers`. -/
abbrev HelperReg := String → Option Helper

/-- Decidable prefix test on character lists (JavaScript string matching). -/
def isPre : List Char → List Char → Bool
  | [], _ => true
  | _ :: _, [] => false
  | a :: as, b :: bs => if a = b then isPre as bs else false

/-- The literal head required by the directive regex
`<<(\x7b"gitdown"(?:[^\x7d]+\x7d))>>` of line 169. -/
def openTag : List Char := "<<\x7b\"gitdown\"".toList

/-- Splits a text at its first closing brace: `some (before, after)` with the
brace itself dropped, `none` when no closing brace occurs. -/
def spanNonBrace : List Char → Option (List Char × List Char)
  | [] => none
  | c :: cs =>
    if c = '\x7d' then some ([], cs)
    else
      match spanNonBrace cs with
      | none => none
      | some p => some (c :: p.1, p.2)

/-- Attempts the directive regex at the head of the text.  A match is the
literal `openTag`, then a nonempty run of non-brace characters (`body`), then
a closing brace immediately followed by two closing angle brackets.  Returns
the body and the text after the match. -/
def matchAt (l : List Char) : Option (List Char × List Char) :=
  if isPre openTag l then
    match spanNonBrace (l.drop openTag.length) with
    | none => none
    | some (body, rest) =>
      if body.isEmpty then none
      else if isPre ['>', '>'] rest then some (body, rest.drop 2)
      else none
  else none

/-- The capture group handed to `JSON.parse` (`match.slice(2, -2)` of
line 170): the matched text without the angle brackets. -/
def innerOf (body : List Char) : List Char :=
  "\x7b\"gitdown\"".toList ++ body ++ ['\x7d']

/-- The placeholder token written in place of a matched directive
(line 186 of the source). -/
def placeholder (n : Nat) : List Char :=
  '⊂' :: '⊂' :: (Nat.repr n).toList ++ ['⊃', '⊃']

/-- First-match association-list lookup, for the `"gitdown"` property
access. -/
def lookupKey (k : String) : List (String × String) → Option String
  | [] => none
  | kv :: rest => if kv.1 = k then some kv.2 else lookupKey k rest

/-- Builds the command record pushed at lines 178-184: the discriminator value
becomes `name`, the payload minus the discriminator key becomes `parameters`,
and the helper is looked up in the registry.  A missing discriminator reads as
JavaScript `undefined`, which the property access of line 182 coerces to the
string key `"undefined"`. -/
def mkCommand (hs : HelperReg) (obj : List (String × String)) (bi : Nat) : Command :=
  let name := lookupKey "gitdown" obj
  { bindingIndex := bi
    name := name
    parameters := obj.filter (fun kv => kv.1 ≠ "gitdown")
    helper := hs (name.getD "undefined")
    executed := false }

/-- The global regex replace of `parser.parse` (line 169): scans the text left
to right, and at each match parses the payload (propagating a `JSON.parse`
throw), pushes a fresh command with the next binding index, and emits the
placeholder token in place of the match.  `fuel` bounds the recursion; a fuel
of the text length always suffices since every step consumes at least one
character. -/
def parseAux (jp : JsonParse) (hs : HelperReg) :
    Nat → List Char → Nat → List Command → Except Err (List Char × Nat × List Command)
  | 0, text, bi, cmds => .ok (text, bi, cmds)
  | _ + 1, [], bi, cmds => .ok ([], bi, cmds)
  | fuel + 1, c :: cs, bi, cmds =>
    match matchAt (c :: cs) with
    | some (body, rest) =>
      match jp (innerOf body) with
      | none => .error .syntaxError
      | some obj =>
        (parseAux jp hs fuel rest (bi + 1) (cmds ++ [mkCommand hs obj (bi + 1)])).map
          (fun r => (placeholder (bi + 1) ++ r.1, r.2.1, r.2.2))
    | none =>
      (parseAux jp hs fuel cs bi cmds).map (fun r => (c :: r.1, r.2.1, r.2.2))

/-- Whether the directive regex matches anywhere in the text. -/
def hasMatch : List Char → Bool
  | [] => false
  | c :: cs => (matchAt (c :: cs)).isSome || hasMatch cs

/-- The capture groups the scan of `parseAux` submits to `JSON.parse`, in scan
order, with the same fuel convention. -/
def scanInners : Nat → List Char → List (List Char)
  | 0, _ => []
  | _ + 1, [] => []
  | fuel + 1, c :: cs =>
    match matchAt (c :: cs) with
    | some (body, rest) => innerOf body :: scanInners fuel rest
    | none => scanInners fuel cs

/-- Model of `parser.parse` (lines 165-194): runs the replace and packages the
state object, with `change` true exactly when the binding index advanced. -/
def parse (jp : JsonParse) (hs : HelperReg) (markdown : List Char)
    (cmds : List Command) (bi : Nat) : Except Err PState :=
  (parseAux jp hs markdown.length markdown bi cmds).map
    (fun r => ⟨r.1, r.2.2, bi != r.2.1, r.2.1⟩)

/-- Maps `command.helper.weight()` over a command list (line 218): the first
command whose helper is `undefined` throws a TypeError. -/
def weightsOf : List Command → Except Err (List Nat)
  | [] => .ok []
  | c :: cs =>
    match c.helper with
    | none => .error .typeError
    | some h => (weightsOf cs).map (fun ws => h.weight :: ws)

/-- Lexicographic comparison of character lists, the comparison
`Array.prototype.sort` applies to the string images of its elements. -/
def lexLe : List Char → List Char → Bool
  | [], _ => true
  | _ :: _, [] => false
  | a :: as, b :: bs => if a = b then lexLe as bs else decide (a < b)

/-- Insertion step for the default-sort model, ordering numbers by the
lexicographic order of their decimal strings. -/
def insertSorted (x : Nat) : List Nat → List Nat
  | [] => [x]
  | y :: ys =>
    if lexLe (Nat.repr x).toList (Nat.repr y).toList then x :: y :: ys
    else y :: insertSorted x ys

/-- Model of the default (string-comparing) `Array.prototype.sort` applied at
line 220 of the source. -/
def sortWeights (l : List Nat) : List Nat := l.foldr insertSorted []

/-- Finds the first occurrence of `pat` in the text, splitting the text as
`pre ++ pat ++ post`; `none` when `pat` does not occur. -/
def splitFirst (pat : List Char) : List Char → Option (List Char × List Char)
  | [] => if pat = [] then some ([], []) else none
  | c :: cs =>
    if isPre pat (c :: cs) then some ([], (c :: cs).drop pat.length)
    else (splitFirst pat cs).map (fun p => (c :: p.1, p.2))

/-- Expansion of the replacement-string patterns of `String.prototype.replace`
(GetSubstitution): `$$` yields a dollar, `$&` the matched text, a
dollar-backquote the text before the match, a dollar-quote the text after the
match; any other dollar sequence is literal.  With a string pattern there are
no capture groups. -/
def expandRepl (matched pre post : List Char) : List Char → List Char
  | [] => []
  | c :: rest =>
    if c = '$' then
      match rest with
      | [] => ['$']
      | d :: rest' =>
        if d = '$' then '$' :: expandRepl matched pre post rest'
        else if d = '&' then matched ++ expandRepl matched pre post rest'
        else if d = '\x60' then pre ++ expandRepl matched pre post rest'
        else if d = '\'' then post ++ expandRepl matched pre post rest'
        else '$' :: expandRepl matched pre post (d :: rest')
    else c :: expandRepl matched pre post rest

/-- Model of `text.replace(pat, rep)` with string arguments, as invoked at
line 234 of the source: replaces the first occurrence of `pat`, expanding the
dollar patterns of `rep`; returns the text unchanged when `pat` does not
occur. -/
def jsReplace (t pat rep : List Char) : List Char :=
  match splitFirst pat t with
  | none => t
  | some (pre, post) => pre ++ expandRepl pat pre post rep ++ post

/-- Applies the per-command substitutions of one round in the given completion
order (line 234, once per fulfilled helper promise). -/
def applySubsts (md : List Char) (subs : List (Nat × List Char)) : List Char :=
  subs.foldl (fun t iv => jsReplace t (placeholder iv.1) iv.2) md

/-- Model of `parser.execute` (lines 203-247): selects the not-yet-executed
commands, computes the lowest weight via the string-comparing default sort,
invokes every helper of that weight with the pre-round markdown, substitutes
the results in dispatch order, and marks the selected commands executed.
Reading the weight of an `undefined` helper raises `typeError`. -/
def execute (s : PState) : Except Err PState :=
  let notExec := s.commands.filter (fun c => !c.executed)
  if notExec.isEmpty then .ok s
  else
    match weightsOf notExec with
    | .error e => .error e
    | .ok ws =>
      let lowestWeight := (sortWeights ws).headD 0
      let sel := notExec.filter (fun c =>
        match c.helper with
        | some h => h.weight == lowestWeight
        | none => false)
      let subs := sel.map (fun c =>
        (c.bindingIndex,
          match c.helper with
          | some h => h.run s.markdown c.parameters
          | none => []))
      let md := applySubsts s.markdown subs
      let cmds := s.commands.map (fun c =>
        if !c.executed &&
            (match c.helper with
             | some h => h.weight == lowestWeight
             | none => false)
        then { c with executed := true }
        else c)
      .ok { s with markdown := md, commands := cmds }

/-- Model of `parser.play` (lines 132-155): parse, execute one round, and stop
when the parse found nothing new and no command remains unexecuted, otherwise
recurse on the updated state.  The source recursion is not guaranteed to
terminate, so the model carries an iteration fuel; `none` means the fuel ran
out. -/
def playAux (jp : JsonParse) (hs : HelperReg) :
    Nat → List Char → List Command → Nat → Option (Except Err PState)
  | 0, _, _, _ => none
  | fuel + 1, md, cmds, bi =>
    match parse jp hs md cmds bi with
    | .error e => some (.error e)
    | .ok ps =>
      match execute ps with
      | .error e => some (.error e)
      | .ok s =>
        if !s.change && (s.commands.filter (fun c => !c.executed)).isEmpty then
          some (.ok s)
        else playAux jp hs fuel s.markdown s.commands s.bindingIndex

/-- Model of the top-level expansion `Gitdown.get` (lines 27-37): play from an
empty registry and binding counter zero, then project the markdown. -/
def run (jp : JsonParse) (hs : HelperReg) (fuel : Nat) (text : List Char) :
    Option (Except Err (List Char)) :=
  (playAux jp hs fuel text [] 0).map (fun r => r.map PState.markdown)

/-- Observable projection of a command (binding index, name, executed flag);
helpers are functions and carry no decidable equality. -/
def cmdView (c : Command) : Nat × Option String × Bool :=
  (c.bindingIndex, c.name, c.executed)

/-- Observable projection of a play state. -/
def stateView (s : PState) : List Char × List (Nat × Option String × Bool) × Bool × Nat :=
  (s.markdown, s.commands.map cmdView, s.change, s.bindingIndex)

/-- Observable projection of a play result. -/
def runView (r : Option (Except Err PState)) :
    Option (Except Err (List Char × List (Nat × Option String × Bool) × Bool × Nat)) :=
  r.map (fun x => x.map stateView)

/-- Extracts the success state of a play result, defaulting to the empty
state. -/
def stateOf (r : Option (Except Err PState)) : PState :=
  match r with
  | some (.ok s) => s
  | _ => default

/-- Checks that `pat` does not match at any position strictly inside `a` when
the text continues with `tail` after `a` (a decidable leftmost-occurrence
guard for the substitution lemmas). -/
def noPrefixAlong (pat : List Char) : List Char → List Char → Bool
  | [], _ => true
  | c :: a, tail => !(isPre pat (c :: (a ++ tail))) && noPrefixAlong pat a tail

/-- Identifiers readable at the guard of line 16: the constructor parameter
and local of `Gitdown` (lines 13-14), the module-level declarations of
lines 6-8, and the ambient CommonJS names.  Translated from the source; no
declaration named `input` is in scope there (the only `input` variables are
locals of `Gitdown.read`, line 60). -/
def guardScopeIds : List String :=
  ["GFM", "gitdown", "Gitdown", "Promise", "fs", "require", "module", "__dirname"]

/-- Outcome of calling the `Gitdown` function. -/
inductive CallOutcome where
  | instanceMade (gfm : String)
  | thrown (referenceErrorName : String)
deriving DecidableEq

/-- Reading an identifier in non-strict JavaScript: an unbound name throws a
ReferenceError, modelled by `none`. -/
def readIdent (env : List String) (x : String) : Option String :=
  if x ∈ env then some x else none

/-- Model of calling `Gitdown` without `new` (lines 16-18): the guard takes
the non-constructor branch and evaluates `new Gitdown(input)`, which begins by
reading the identifier `input` in the scope of `guardScopeIds`. -/
def gitdownPlainCall (gfm : String) : CallOutcome :=
  match readIdent guardScopeIds "input" with
  | some v => .instanceMade v
  | none => .thrown "input"

/-- One scan followed by one round, for observing which commands a single
round executes. -/
def oneRound (jp : JsonParse) (hs : HelperReg) (text : List Char) : Except Err PState := do
  let ps ← parse jp hs text [] 0
  execute ps

/-- Helper with a fixed weight returning fixed text. -/
def constHelper (w : Nat) (out : String) : Helper :=
  ⟨w, fun _ _ => out.toList⟩

/-- Stand-in for `JSON.parse` at the two payloads naming helpers `a` and `b`;
faithful to `JSON.parse` on every input the test documents reach. -/
def jpAB : JsonParse := fun inner =>
  if inner = "\x7b\"gitdown\":\"a\"\x7d".toList then some [("gitdown", "a")]
  else if inner = "\x7b\"gitdown\":\"b\"\x7d".toList then some [("gitdown", "b")]
  else none

/-- Stand-in for `JSON.parse` on documents whose every reached payload is
invalid JSON (where `JSON.parse` throws). -/
def jpNone : JsonParse := fun _ => none

/-- Empty helper registry. -/
def hsNone : HelperReg := fun _ => none

/-- Registry with helper `a` of weight 2 and helper `b` of weight 10, for the
multi-digit weight comparison scenario. -/
def hsDigits : HelperReg := fun n =>
  if n = "a" then some (constHelper 2 "A")
  else if n = "b" then some (constHelper 10 "B")
  else none

/-- Registry where helper `a` (weight 1) returns plain text and helper `b`
(weight 2) returns a fresh directive block naming `a`. -/
def hsEmit : HelperReg := fun n =>
  if n = "a" then some (constHelper 1 "A")
  else if n = "b" then some ⟨2, fun _ _ => "<<\x7b\"gitdown\":\"a\"\x7d>>".toList⟩
  else none

/-- Document with one `a` directive followed by one `b` directive. -/
def textAB : List Char :=
  "<<\x7b\"gitdown\":\"a\"\x7d>> <<\x7b\"gitdown\":\"b\"\x7d>>".toList

/-- Stand-in for `JSON.parse` at the payload naming the unregistered helper
`nosuch`. -/
def jpNosuch : JsonParse := fun inner =>
  if inner = "\x7b\"gitdown\":\"nosuch\"\x7d".toList then some [("gitdown", "nosuch")]
  else none

/-- Registry holding only a `test` helper, so the name `nosuch` is
unregistered. -/
def hsTest : HelperReg := fun n =>
  if n = "test" then some (constHelper 10 "tested") else none

/-- Document with a single directive naming the unregistered helper. -/
def textNosuch : List Char := "<<\x7b\"gitdown\":\"nosuch\"\x7d>>".toList

/-- Directive block whose payload holds a nested JSON object, so a closing
brace occurs before the final one. -/
def blockNested : List Char :=
  "<<\x7b\"gitdown\":\"x\",\"a\":\x7b\"b\":1\x7d\x7d>>".toList

/-- Directive block whose payload is valid JSON holding the characters of the
block terminator inside a string value. -/
def blockTricky : List Char :=
  "<<\x7b\"gitdown\":\"x\",\"a\":\"\x7d>>\"\x7d>>".toList

/-! Lemmas about the matching and substitution primitives. -/

theorem isPre_append (a b : List Char) : isPre a (a ++ b) = true := by
  induction a with
  | nil => rfl
  | cons c cs ih => simp [isPre, ih]

theorem spanNonBrace_append {m : List Char} (t : List Char) (h : '\x7d' ∉ m) :
    spanNonBrace (m ++ '\x7d' :: t) = some (m, t) := by
  induction m with
  | nil => simp [spanNonBrace]
  | cons c cs ih =>
    have hc : c ≠ '\x7d' := fun hc => h (hc ▸ List.mem_cons_self c cs)
    have hcs : '\x7d' ∉ cs := fun hm => h (List.mem_cons_of_mem c hm)
    simp [spanNonBrace, hc, ih hcs]

theorem splitFirst_append {pat : List Char} (a b : List Char)
    (h : noPrefixAlong pat a (pat ++ b) = true) :
    splitFirst pat (a ++ pat ++ b) = some (a, b) := by
  induction a with
  | nil =>
    show splitFirst pat ([] ++ pat ++ b) = some ([], b)
    rw [List.nil_append]
    cases hpb : pat ++ b with
    | nil =>
      rcases List.append_eq_nil.mp hpb with ⟨hp, hb⟩
      subst hp; subst hb; rfl
    | cons c cs =>
      have hpre : isPre pat (c :: cs) = true := by
        rw [← hpb]; exact isPre_append pat b
      rw [splitFirst, if_pos hpre, ← hpb, List.drop_left]
  | cons c a' ih =>
    simp only [noPrefixAlong, Bool.and_eq_true, Bool.not_eq_true'] at h
    have hnp : isPre pat (c :: (a' ++ (pat ++ b))) = false := h.1
    have he : (c :: a') ++ pat ++ b = c :: (a' ++ (pat ++ b)) := by simp
    rw [he, splitFirst, if_neg (by simp [hnp]),
      show a' ++ (pat ++ b) = a' ++ pat ++ b by simp, ih h.2]
    rfl

theorem expandRepl_of_no_dollar {rep : List Char} (matched pre post : List Char)
    (h : '$' ∉ rep) : expandRepl matched pre post rep = rep := by
  induction rep with
  | nil => rfl
  | cons c rest ih =>
    have hc : c ≠ '$' := fun hc => h (hc ▸ List.mem_cons_self c rest)
    have hrest : '$' ∉ rest := fun hm => h (List.mem_cons_of_mem c hm)
    rw [expandRepl.eq_def]
    simp [hc, ih hrest]

theorem jsReplace_split {pat : List Char} (a b rep : List Char)
    (h : noPrefixAlong pat a (pat ++ b) = true) (hd : '$' ∉ rep) :
    jsReplace (a ++ pat ++ b) pat rep = a ++ rep ++ b := by
  unfold jsReplace
  rw [splitFirst_append a b h]
  simp [expandRepl_of_no_dollar pat a b hd]

/-- C6 counterexample: two same-weight directives resolved in the two possible
completion orders yield different final texts when one helper's returned
string holds the dollar-backquote replacement pattern, because line 234 uses
the pattern semantics of `String.prototype.replace`.  Both invocations are
successful helper results, so the claim's universal commutativity fails. -/
theorem dollar_value_breaks_commutativity_cex :
    applySubsts (placeholder 1 ++ placeholder 2)
        [(1, "X".toList), (2, "$\x60".toList)]
      ≠ applySubsts (placeholder 1 ++ placeholder 2)
        [(2, "$\x60".toList), (1, "X".toList)] := by
  decide

/-- C6 (amended): within one round, when every substituted value is free of
the dollar character and each placeholder occupies a unique leftmost span in
both application orders, the two completion orders produce the same final
text, namely the one with each placeholder replaced by its value. -/
theorem same_weight_substitutions_commute (i j : Nat) (v1 v2 a b c : List Char)
    (h1 : noPrefixAlong (placeholder i) a
        (placeholder i ++ (b ++ placeholder j ++ c)) = true)
    (h2 : noPrefixAlong (placeholder j) (a ++ v1 ++ b) (placeholder j ++ c) = true)
    (h3 : noPrefixAlong (placeholder j) (a ++ placeholder i ++ b)
        (placeholder j ++ c) = true)
    (h4 : noPrefixAlong (placeholder i) a (placeholder i ++ (b ++ v2 ++ c)) = true)
    (hv1 : '$' ∉ v1) (hv2 : '$' ∉ v2) :
    applySubsts (a ++ placeholder i ++ b ++ placeholder j ++ c)
        [(i, v1), (j, v2)]
      = applySubsts (a ++ placeholder i ++ b ++ placeholder j ++ c)
        [(j, v2), (i, v1)]
    ∧ applySubsts (a ++ placeholder i ++ b ++ placeholder j ++ c)
        [(i, v1), (j, v2)]
      = a ++ v1 ++ b ++ v2 ++ c := by
  have s1 : jsReplace (a ++ placeholder i ++ b ++ placeholder j ++ c)
      (placeholder i) v1 = a ++ v1 ++ b ++ placeholder j ++ c := by
    have h := jsReplace_split a (b ++ placeholder j ++ c) v1 h1 hv1
    simpa [List.append_assoc] using h
  have s2 : jsReplace (a ++ v1 ++ b ++ placeholder j ++ c)
      (placeholder j) v2 = a ++ v1 ++ b ++ v2 ++ c := by
    have h := jsReplace_split (a ++ v1 ++ b) c v2 h2 hv2
    simpa [List.append_assoc] using h
  have s3 : jsReplace (a ++ placeholder i ++ b ++ placeholder j ++ c)
      (placeholder j) v2 = a ++ placeholder i ++ b ++ v2 ++ c := by
    have h := jsReplace_split (a ++ placeholder i ++ b) c v2 h3 hv2
    simpa [List.append_assoc] using h
  have s4 : jsReplace (a ++ placeholder i ++ b ++ v2 ++ c)
      (placeholder i) v1 = a ++ v1 ++ b ++ v2 ++ c := by
    have h := jsReplace_split a (b ++ v2 ++ c) v1 h4 hv1
    simpa [List.append_assoc] using h
  constructor
  · show jsReplace (jsReplace (a ++ placeholder i ++ b ++ placeholder j ++ c)
        (placeholder i) v1) (placeholder j) v2
      = jsReplace (jsReplace (a ++ placeholder i ++ b ++ placeholder j ++ c)
        (placeholder j) v2) (placeholder i) v1
    rw [s1, s2, s3, s4]
  · show jsReplace (jsReplace (a ++ placeholder i ++ b ++ placeholder j ++ c)
        (placeholder i) v1) (placeholder j) v2 = a ++ v1 ++ b ++ v2 ++ c
    rw [s1, s2]

/-- Witness for the amended C6 theorem at a concrete round. -/
theorem same_weight_substitutions_commute_witness :
    applySubsts ("A".toList ++ placeholder 1 ++ "B".toList ++ placeholder 2 ++ "C".toList)
        [(1, "X".toList), (2, "Y".toList)]
      = applySubsts ("A".toList ++ placeholder 1 ++ "B".toList ++ placeholder 2 ++ "C".toList)
        [(2, "Y".toList), (1, "X".toList)] :=
  (same_weight_substitutions_commute 1 2 "X".toList "Y".toList
    "A".toList "B".toList "C".toList
    (by decide) (by decide) (by decide) (by decide) (by decide) (by decide)).1

/-- C8: when a successful helper result holds no dollar character, the
substitution of line 234 replaces exactly the directive's placeholder and
leaves all other text unchanged; a result holding a replacement pattern such
as the dollar-backquote sequence is altered during insertion. -/
theorem substitution_exact_unless_dollar :
    (∀ (i : Nat) (v a b : List Char),
        noPrefixAlong (placeholder i) a (placeholder i ++ b) = true →
        '$' ∉ v →
        jsReplace (a ++ placeholder i ++ b) (placeholder i) v = a ++ v ++ b)
    ∧ jsReplace ("A".toList ++ placeholder 1 ++ "B".toList) (placeholder 1)
        "$\x60".toList = "AAB".toList
    ∧ jsReplace ("A".toList ++ placeholder 1 ++ "B".toList) (placeholder 1)
        "$\x60".toList
      ≠ "A".toList ++ "$\x60".toList ++ "B".toList := by
  refine ⟨fun i v a b h hd => jsReplace_split a b v h hd, by decide, by decide⟩

/-- Witness for the C8 theorem at a concrete substitution. -/
theorem substitution_exact_unless_dollar_witness :
    jsReplace ("A".toList ++ placeholder 1 ++ "B".toList) (placeholder 1) "X".toList
      = "A".toList ++ "X".toList ++ "B".toList :=
  substitution_exact_unless_dollar.1 1 "X".toList "A".toList "B".toList
    (by decide) (by decide)

/-- C9 counterexample: this directive block's payload is valid JSON holding a
closing brace before the block's final one (inside a string value, followed by
the two closing angle brackets), and the scanner does match there — a
truncated prefix of the block — so `run` raises the `JSON.parse` error instead
of leaving the block verbatim with no error. -/
theorem brace_before_terminator_matches_cex :
    runView (playAux jpNone hsNone 1 blockTricky [] 0)
      = some (.error .syntaxError) := by
  rfl

/-- C9 (amended): a directive block whose payload holds a closing brace before
the block's final one is never matched at its opening, provided the text right
after the payload's first closing brace does not begin with the two closing
angle brackets; in particular the nested-object block `blockNested` is left
verbatim by `run` with no error reported. -/
theorem nested_brace_block_never_matched :
    (∀ (m1 m2 post : List Char),
        '\x7d' ∉ m1 →
        isPre ['>', '>'] (m2 ++ '\x7d' :: '>' :: '>' :: post) = false →
        matchAt (openTag ++ ((m1 ++ '\x7d' :: m2) ++ '\x7d' :: '>' :: '>' :: post))
          = none)
    ∧ runView (playAux jpNone hsNone 1 blockNested [] 0)
        = some (.ok (blockNested, [], false, 0)) := by
  constructor
  · intro m1 m2 post hm1 hgt
    have he : (m1 ++ '\x7d' :: m2) ++ '\x7d' :: '>' :: '>' :: post
        = m1 ++ '\x7d' :: (m2 ++ '\x7d' :: '>' :: '>' :: post) := by
      simp
    rw [matchAt, if_pos (isPre_append openTag _), List.drop_left, he,
      spanNonBrace_append _ hm1]
    cases m1 with
    | nil => rfl
    | cons c m1' => simp [hgt]
  · rfl

/-- Witness for the amended C9 theorem at the nested-object block. -/
theorem nested_brace_block_never_matched_witness :
    matchAt (openTag
        ++ (((":\"x\",\"a\":\x7b\"b\":1".toList) ++ '\x7d' :: ([] : List Char))
          ++ '\x7d' :: '>' :: '>' :: ([] : List Char))) = none :=
  nested_brace_block_never_matched.1 ":\"x\",\"a\":\x7b\"b\":1".toList [] []
    (by decide) (by decide)

/-! Lemmas about the scanner and the engine loop. -/

theorem parseAux_noMatch (jp : JsonParse) (hs : HelperReg) :
    ∀ (fuel : Nat) (text : List Char) (bi : Nat) (cmds : List Command),
      hasMatch text = false →
      parseAux jp hs fuel text bi cmds = .ok (text, bi, cmds) := by
  intro fuel
  induction fuel with
  | zero => intro text bi cmds _; rfl
  | succ fuel ih =>
    intro text bi cmds h
    cases text with
    | nil => rfl
    | cons c cs =>
      simp only [hasMatch, Bool.or_eq_false_iff] at h
      have hm : matchAt (c :: cs) = none := by
        cases hmm : matchAt (c :: cs) with
        | none => rfl
        | some p => rw [hmm] at h; simp at h
      simp [parseAux, hm, ih cs bi cmds h.2, Except.map]

theorem playAux_noMatch (jp : JsonParse) (hs : HelperReg) (fuel : Nat)
    (text : List Char) (h : hasMatch text = false) :
    playAux jp hs (fuel + 1) text [] 0 = some (.ok ⟨text, [], false, 0⟩) := by
  have hp : parse jp hs text [] 0 = .ok ⟨text, [], false, 0⟩ := by
    simp [parse, parseAux_noMatch jp hs text.length text 0 [] h, Except.map]
  have he : execute ⟨text, [], false, 0⟩ = .ok ⟨text, [], false, 0⟩ := rfl
  simp [playAux, hp, he]

theorem parseAux_bid (jp : JsonParse) (hs : HelperReg) :
    ∀ (fuel : Nat) (text : List Char) (bi : Nat) (cmds : List Command)
      (t : List Char) (b : Nat) (cm : List Command),
      parseAux jp hs fuel text bi cmds = .ok (t, b, cm) →
      cm.map (fun c => c.bindingIndex)
          = cmds.map (fun c => c.bindingIndex) ++ List.range' (bi + 1) (b - bi)
        ∧ bi ≤ b := by
  intro fuel
  induction fuel with
  | zero =>
    intro text bi cmds t b cm h
    simp only [parseAux, Except.ok.injEq, Prod.mk.injEq] at h
    obtain ⟨-, rfl, rfl⟩ := h
    simp
  | succ fuel ih =>
    intro text bi cmds t b cm h
    cases text with
    | nil =>
      simp only [parseAux, Except.ok.injEq, Prod.mk.injEq] at h
      obtain ⟨-, rfl, rfl⟩ := h
      simp
    | cons c cs =>
      cases hm : matchAt (c :: cs) with
      | none =>
        simp only [parseAux, hm] at h
        cases hrec : parseAux jp hs fuel cs bi cmds with
        | error e => rw [hrec] at h; simp [Except.map] at h
        | ok r =>
          obtain ⟨t', b', cm'⟩ := r
          rw [hrec] at h
          simp only [Except.map, Except.ok.injEq, Prod.mk.injEq] at h
          obtain ⟨-, rfl, rfl⟩ := h
          exact ih cs bi cmds t' b' cm' hrec
      | some p =>
        obtain ⟨body, rest⟩ := p
        simp only [parseAux, hm] at h
        cases hjp : jp (innerOf body) with
        | none => rw [hjp] at h; simp at h
        | some obj =>
          simp only [hjp] at h
          cases hrec : parseAux jp hs fuel rest (bi + 1)
              (cmds ++ [mkCommand hs obj (bi + 1)]) with
          | error e => rw [hrec] at h; simp [Except.map] at h
          | ok r =>
            obtain ⟨t', b', cm'⟩ := r
            rw [hrec] at h
            simp only [Except.map, Except.ok.injEq, Prod.mk.injEq] at h
            obtain ⟨-, rfl, rfl⟩ := h
            obtain ⟨hmap, hle⟩ := ih rest (bi + 1) _ t' b' cm' hrec
            constructor
            · rw [hmap]
              simp only [List.map_append, List.map_cons, List.map_nil, mkCommand]
              rw [show b' - bi = (b' - (bi + 1)) + 1 by omega, List.range'_succ]
              simp
            · omega

theorem parse_bid (jp : JsonParse) (hs : HelperReg) (md : List Char)
    (cmds : List Command) (bi : Nat) (ps : PState)
    (h : parse jp hs md cmds bi = .ok ps) :
    ps.commands.map (fun c => c.bindingIndex)
        = cmds.map (fun c => c.bindingIndex)
          ++ List.range' (bi + 1) (ps.bindingIndex - bi)
      ∧ bi ≤ ps.bindingIndex := by
  unfold parse at h
  cases hrec : parseAux jp hs md.length md bi cmds with
  | error e => rw [hrec] at h; simp [Except.map] at h
  | ok r =>
    obtain ⟨t, b, cm⟩ := r
    rw [hrec] at h
    simp only [Except.map, Except.ok.injEq] at h
    subst h
    exact parseAux_bid jp hs md.length md bi cmds t b cm hrec

theorem execute_view_eq (s s' : PState) (h : execute s = .ok s') :
    s'.commands.map (fun c => c.bindingIndex) = s.commands.map (fun c => c.bindingIndex)
    ∧ s'.bindingIndex = s.bindingIndex ∧ s'.change = s.change := by
  simp only [execute] at h
  by_cases hemp : (s.commands.filter (fun c => !c.executed)).isEmpty
  · rw [if_pos hemp] at h
    injection h with h
    subst h
    exact ⟨rfl, rfl, rfl⟩
  · rw [if_neg hemp] at h
    cases hws : weightsOf (s.commands.filter (fun c => !c.executed)) with
    | error e => rw [hws] at h; cases h
    | ok ws =>
      rw [hws] at h
      injection h with h
      subst h
      refine ⟨?_, rfl, rfl⟩
      rw [List.map_map]
      apply List.map_congr_left
      intro c _
      simp only [Function.comp_apply]
      split <;> rfl

theorem playAux_bid (jp : JsonParse) (hs : HelperReg) :
    ∀ (fuel : Nat) (md : List Char) (cmds : List Command) (bi : Nat) (s : PState),
      playAux jp hs fuel md cmds bi = some (.ok s) →
      cmds.map (fun c => c.bindingIndex) = List.range' 1 bi →
      s.commands.map (fun c => c.bindingIndex) = List.range' 1 s.bindingIndex := by
  intro fuel
  induction fuel with
  | zero => intro md cmds bi s h _; simp [playAux] at h
  | succ fuel ih =>
    intro md cmds bi s h hinv
    simp only [playAux] at h
    cases hp : parse jp hs md cmds bi with
    | error e => rw [hp] at h; simp at h
    | ok ps =>
      simp only [hp] at h
      cases he : execute ps with
      | error e => rw [he] at h; simp at h
      | ok s' =>
        simp only [he] at h
        obtain ⟨hmap, hle⟩ := parse_bid jp hs md cmds bi ps hp
        have hps : ps.commands.map (fun c => c.bindingIndex)
            = List.range' 1 ps.bindingIndex := by
          have happ := List.range'_append_1 1 bi (ps.bindingIndex - bi)
          rw [Nat.add_comm 1 bi] at happ
          rw [hmap, hinv, happ]
          congr 1
          omega
        obtain ⟨hm', hb', hc'⟩ := execute_view_eq ps s' he
        by_cases hstop :
            (!s'.change && (s'.commands.filter (fun c => !c.executed)).isEmpty) = true
        · rw [if_pos hstop] at h
          injection h with h
          injection h with h
          subst h
          rw [hm', hb']
          exact hps
        · rw [if_neg hstop] at h
          exact ih s'.markdown s'.commands s'.bindingIndex s h
            (by rw [hm', hb']; exact hps)

theorem weightsOf_err :
    ∀ (l : List Command), (∃ c ∈ l, c.helper = none) →
      weightsOf l = .error .typeError := by
  intro l
  induction l with
  | nil => rintro ⟨c, hc, -⟩; exact absurd hc (List.not_mem_nil c)
  | cons d ds ih =>
    rintro ⟨c, hc, hnone⟩
    cases hd : d.helper with
    | none => simp [weightsOf, hd]
    | some hlp =>
      simp only [weightsOf, hd]
      rcases List.mem_cons.mp hc with rfl | hmem
      · rw [hd] at hnone; cases hnone
      · rw [ih ⟨c, hmem, hnone⟩]; rfl

theorem execute_err (s : PState)
    (hc : ∃ c ∈ s.commands, c.executed = false ∧ c.helper = none) :
    execute s = .error .typeError := by
  obtain ⟨c, hmem, hexec, hnone⟩ := hc
  have hmemf : c ∈ s.commands.filter (fun c => !c.executed) :=
    List.mem_filter.mpr ⟨hmem, by rw [hexec]; rfl⟩
  have hemp : (s.commands.filter (fun c => !c.executed)).isEmpty = false := by
    cases hfe : s.commands.filter (fun c => !c.executed) with
    | nil => rw [hfe] at hmemf; exact absurd hmemf (List.not_mem_nil c)
    | cons _ _ => rfl
  simp only [execute]
  rw [if_neg (by simp [hemp]), weightsOf_err _ ⟨c, hmemf, hnone⟩]

theorem parseAux_ok_inner_some (jp : JsonParse) (hs : HelperReg) :
    ∀ (fuel : Nat) (text : List Char) (bi : Nat) (cmds : List Command)
      (r : List Char × Nat × List Command),
      parseAux jp hs fuel text bi cmds = .ok r →
      ∀ inner ∈ scanInners fuel text, ∃ obj, jp inner = some obj := by
  intro fuel
  induction fuel with
  | zero => intro text bi cmds r _ inner hin; simp [scanInners] at hin
  | succ fuel ih =>
    intro text bi cmds r h inner hin
    cases text with
    | nil => simp [scanInners] at hin
    | cons c cs =>
      cases hm : matchAt (c :: cs) with
      | none =>
        simp only [scanInners, hm] at hin
        simp only [parseAux, hm] at h
        cases hrec : parseAux jp hs fuel cs bi cmds with
        | error e => rw [hrec] at h; simp [Except.map] at h
        | ok r' => exact ih cs bi cmds r' hrec inner hin
      | some p =>
        obtain ⟨body, rest⟩ := p
        simp only [scanInners, hm] at hin
        simp only [parseAux, hm] at h
        cases hjp : jp (innerOf body) with
        | none => rw [hjp] at h; simp at h
        | some obj =>
          simp only [hjp] at h
          rcases List.mem_cons.mp hin with rfl | htail
          · exact ⟨obj, hjp⟩
          · cases hrec : parseAux jp hs fuel rest (bi + 1)
                (cmds ++ [mkCommand hs obj (bi + 1)]) with
            | error e => rw [hrec] at h; simp [Except.map] at h
            | ok r' => exact ih rest _ _ r' hrec inner htail

theorem parseAux_extends (jp : JsonParse) (hs : HelperReg) :
    ∀ (fuel : Nat) (text : List Char) (bi : Nat) (cmds : List Command)
      (t : List Char) (b : Nat) (cm : List Command),
      parseAux jp hs fuel text bi cmds = .ok (t, b, cm) →
      ∃ news, cm = cmds ++ news := by
  intro fuel
  induction fuel with
  | zero =>
    intro text bi cmds t b cm h
    simp only [parseAux, Except.ok.injEq, Prod.mk.injEq] at h
    obtain ⟨-, -, rfl⟩ := h
    exact ⟨[], by simp⟩
  | succ fuel ih =>
    intro text bi cmds t b cm h
    cases text with
    | nil =>
      simp only [parseAux, Except.ok.injEq, Prod.mk.injEq] at h
      obtain ⟨-, -, rfl⟩ := h
      exact ⟨[], by simp⟩
    | cons c cs =>
      cases hm : matchAt (c :: cs) with
      | none =>
        simp only [parseAux, hm] at h
        cases hrec : parseAux jp hs fuel cs bi cmds with
        | error e => rw [hrec] at h; simp [Except.map] at h
        | ok r' =>
          obtain ⟨t', b', cm'⟩ := r'
          rw [hrec] at h
          simp only [Except.map, Except.ok.injEq, Prod.mk.injEq] at h
          obtain ⟨-, -, rfl⟩ := h
          exact ih cs bi cmds t' b' cm' hrec
      | some p =>
        obtain ⟨body, rest⟩ := p
        simp only [parseAux, hm] at h
        cases hjp : jp (innerOf body) with
        | none => rw [hjp] at h; simp at h
        | some obj =>
          simp only [hjp] at h
          cases hrec : parseAux jp hs fuel rest (bi + 1)
              (cmds ++ [mkCommand hs obj (bi + 1)]) with
          | error e => rw [hrec] at h; simp [Except.map] at h
          | ok r' =>
            obtain ⟨t', b', cm'⟩ := r'
            rw [hrec] at h
            simp only [Except.map, Except.ok.injEq, Prod.mk.injEq] at h
            obtain ⟨-, -, rfl⟩ := h
            obtain ⟨news, hnews⟩ := ih rest _ _ t' b' cm' hrec
            exact ⟨mkCommand hs obj (bi + 1) :: news, by simp [hnews]⟩

theorem parseAux_missing (jp : JsonParse) (hs : HelperReg)
    (hund : hs "undefined" = none) :
    ∀ (fuel : Nat) (text : List Char) (bi : Nat) (cmds : List Command)
      (t : List Char) (b : Nat) (cm : List Command),
      parseAux jp hs fuel text bi cmds = .ok (t, b, cm) →
      ∀ inner ∈ scanInners fuel text,
      ∀ obj, jp inner = some obj → lookupKey "gitdown" obj = none →
      ∃ c ∈ cm, c.executed = false ∧ c.helper = none := by
  intro fuel
  induction fuel with
  | zero => intro text bi cmds t b cm _ inner hin; simp [scanInners] at hin
  | succ fuel ih =>
    intro text bi cmds t b cm h inner hin obj hobj hmiss
    cases text with
    | nil => simp [scanInners] at hin
    | cons c cs =>
      cases hm : matchAt (c :: cs) with
      | none =>
        simp only [scanInners, hm] at hin
        simp only [parseAux, hm] at h
        cases hrec : parseAux jp hs fuel cs bi cmds with
        | error e => rw [hrec] at h; simp [Except.map] at h
        | ok r' =>
          obtain ⟨t', b', cm'⟩ := r'
          rw [hrec] at h
          simp only [Except.map, Except.ok.injEq, Prod.mk.injEq] at h
          obtain ⟨-, -, rfl⟩ := h
          exact ih cs bi cmds t' b' cm' hrec inner hin obj hobj hmiss
      | some p =>
        obtain ⟨body, rest⟩ := p
        simp only [scanInners, hm] at hin
        simp only [parseAux, hm] at h
        cases hjp : jp (innerOf body) with
        | none => rw [hjp] at h; simp at h
        | some obj' =>
          simp only [hjp] at h
          cases hrec : parseAux jp hs fuel rest (bi + 1)
              (cmds ++ [mkCommand hs obj' (bi + 1)]) with
          | error e => rw [hrec] at h; simp [Except.map] at h
          | ok r' =>
            obtain ⟨t', b', cm'⟩ := r'
            rw [hrec] at h
            simp only [Except.map, Except.ok.injEq, Prod.mk.injEq] at h
            obtain ⟨-, -, rfl⟩ := h
            rcases List.mem_cons.mp hin with rfl | htail
            · have hobj2 : obj = obj' := by
                rw [hobj] at hjp
                exact Option.some.inj hjp
              subst hobj2
              refine ⟨mkCommand hs obj (bi + 1), ?_, rfl, ?_⟩
              · obtain ⟨news, hnews⟩ := parseAux_extends jp hs fuel rest (bi + 1)
                  (cmds ++ [mkCommand hs obj (bi + 1)]) t' b' cm' hrec
                rw [hnews]
                simp
              · simp [mkCommand, hmiss, hund]
            · exact ih rest _ _ t' b' cm' hrec inner htail obj hobj hmiss

/-- C4: a text the directive regex matches nowhere passes through `run`
unchanged — the parse finds nothing, the round has nothing to execute, and the
loop stops on its first iteration returning the input text. -/
theorem run_fixes_directive_free_text (jp : JsonParse) (hs : HelperReg)
    (fuel : Nat) (text : List Char) (h : hasMatch text = false) :
    run jp hs (fuel + 1) text = some (.ok text) := by
  simp [run, playAux_noMatch jp hs fuel text h, Except.map]

/-- Witness for the C4 theorem at a concrete directive-free text. -/
theorem run_fixes_directive_free_text_witness :
    hasMatch "Hello world".toList = false
    ∧ run jpNone hsNone 1 "Hello world".toList = some (.ok "Hello world".toList) :=
  ⟨by decide, run_fixes_directive_free_text jpNone hsNone 0 "Hello world".toList (by decide)⟩

/-- C5 counterexample: on the input text that is literally the placeholder
token of binding identifier 7 and holds no directive, `run` returns with that
placeholder token present in the (final) intermediate text while the registry
holds no record at all, so the token corresponds to no directive record. -/
theorem stray_placeholder_without_record_cex :
    runView (playAux jpNone hsNone 1 (placeholder 7) [] 0)
      = some (.ok (placeholder 7, [], false, 0)) := by rfl

/-- C5 (amended): starting from a registry whose binding identifiers are
exactly `1..bi` (so in particular from the empty registry with counter zero),
any state `run` reaches has registry identifiers exactly `1, 2, ...` up to the
counter — strictly increasing from 1, none skipped or reused — and hence every
identifier of a scanner-inserted placeholder corresponds to exactly one
directive record; a placeholder-shaped substring already present in the input
text need not correspond to any record. -/
theorem binding_ids_sequential_and_unique (jp : JsonParse) (hs : HelperReg)
    (fuel : Nat) (md : List Char) (cmds : List Command) (bi : Nat) (s : PState)
    (hinv : cmds.map (fun c => c.bindingIndex) = List.range' 1 bi)
    (h : playAux jp hs fuel md cmds bi = some (.ok s)) :
    s.commands.map (fun c => c.bindingIndex) = List.range' 1 s.bindingIndex
    ∧ ∀ k ∈ s.commands.map (fun c => c.bindingIndex),
        (s.commands.map (fun c => c.bindingIndex)).count k = 1 := by
  have hmap := playAux_bid jp hs fuel md cmds bi s h hinv
  refine ⟨hmap, fun k hk => ?_⟩
  rw [hmap] at hk ⊢
  exact List.count_eq_one_of_mem (List.nodup_range' _ _) hk

/-- Witness for the amended C5 theorem on a two-directive run. -/
theorem binding_ids_sequential_and_unique_witness :
    (stateOf (playAux jpAB hsDigits 3 textAB [] 0)).commands.map
        (fun c => c.bindingIndex)
      = List.range' 1 (stateOf (playAux jpAB hsDigits 3 textAB [] 0)).bindingIndex :=
  (binding_ids_sequential_and_unique jpAB hsDigits 3 textAB [] 0
    (stateOf (playAux jpAB hsDigits 3 textAB [] 0)) rfl rfl).1

/-- C2 counterexample: on a document whose single directive names the
unregistered helper `nosuch`, the scan itself succeeds — `parse` returns a
state (placeholder written, record stored with an `undefined` helper) and no
error — and the failure only appears later, as the TypeError of the round
step, so no UnknownHelper error is surfaced at discovery time during the
scan. -/
theorem unknown_helper_scan_succeeds_cex :
    (parse jpNosuch hsTest textNosuch [] 0).map stateView
      = .ok (placeholder 1, [(1, some "nosuch", false)], true, 1)
    ∧ runView (playAux jpNosuch hsTest 2 textNosuch [] 0)
      = some (.error .typeError) := ⟨rfl, rfl⟩

/-- C2 (amended): once a scan has stored a directive whose helper lookup found
nothing, the run fails — but at the start of the next round, when the weight
of the `undefined` helper is read (a TypeError), not during the scan, which
returns successfully. -/
theorem unknown_helper_fails_at_round (jp : JsonParse) (hs : HelperReg)
    (fuel : Nat) (md : List Char) (cmds : List Command) (bi : Nat) (ps : PState)
    (hp : parse jp hs md cmds bi = .ok ps)
    (hc : ∃ c ∈ ps.commands, c.executed = false ∧ c.helper = none) :
    playAux jp hs (fuel + 1) md cmds bi = some (.error .typeError) := by
  simp [playAux, hp, execute_err ps hc]

/-- The state the scan reaches on the unknown-helper document. -/
def psNosuch : PState := (parse jpNosuch hsTest textNosuch [] 0).toOption.getD default

/-- Witness for the amended C2 theorem at the unknown-helper document. -/
theorem unknown_helper_fails_at_round_witness :
    playAux jpNosuch hsTest 2 textNosuch [] 0 = some (.error .typeError) :=
  unknown_helper_fails_at_round jpNosuch hsTest 1 textNosuch [] 0 psNosuch rfl
    ⟨mkCommand hsTest [("gitdown", "nosuch")] 1, List.mem_cons_self _ _, rfl, rfl⟩

/-- C7: whenever the scan reaches a block whose bracketed payload is not valid
JSON (the `JSON.parse` stand-in returns `none`) or whose payload lacks the
`gitdown` discriminator key, the run fails with an error surfaced to the
caller — the invalid-JSON case throws during the scan itself, the
missing-discriminator case throws at the next round when the `undefined`
helper's weight is read — and in neither case is the block silently
skipped. -/
theorem malformed_or_missing_discriminator_fails (jp : JsonParse) (hs : HelperReg)
    (fuel : Nat) (text : List Char) (hund : hs "undefined" = none)
    (H : ∃ inner ∈ scanInners text.length text,
        jp inner = none
        ∨ ∃ obj, jp inner = some obj ∧ lookupKey "gitdown" obj = none) :
    ∃ e, playAux jp hs (fuel + 1) text [] 0 = some (.error e) := by
  obtain ⟨inner, hin, hbad⟩ := H
  cases hp : parse jp hs text [] 0 with
  | error e => exact ⟨e, by simp [playAux, hp]⟩
  | ok ps =>
    have hrec : ∃ r, parseAux jp hs text.length text 0 [] = .ok r := by
      unfold parse at hp
      cases hr : parseAux jp hs text.length text 0 [] with
      | error e => rw [hr] at hp; simp [Except.map] at hp
      | ok r => exact ⟨r, rfl⟩
    obtain ⟨r, hr⟩ := hrec
    rcases hbad with hnone | ⟨obj, hsome, hmiss⟩
    · obtain ⟨obj, hobj⟩ :=
        parseAux_ok_inner_some jp hs text.length text 0 [] r hr inner hin
      rw [hobj] at hnone
      cases hnone
    · obtain ⟨t, b, cm⟩ := r
      have hpc : ps.commands = cm := by
        unfold parse at hp
        rw [hr] at hp
        simp only [Except.map, Except.ok.injEq] at hp
        rw [← hp]
      obtain ⟨c, hcmem, hcex, hcnone⟩ :=
        parseAux_missing jp hs hund text.length text 0 [] t b cm hr inner hin
          obj hsome hmiss
      exact ⟨.typeError,
        by simp [playAux, hp, execute_err ps ⟨c, by rw [hpc]; exact hcmem, hcex, hcnone⟩]⟩

/-- Witness for the C7 theorem: the truncated-block document submits an
invalid payload to `JSON.parse`, and the run fails. -/
theorem malformed_or_missing_discriminator_fails_witness :
    ∃ e, playAux jpNone hsNone (0 + 1) blockTricky [] 0 = some (.error e) :=
  malformed_or_missing_discriminator_fails jpNone hsNone 0 blockTricky rfl
    ⟨"\x7b\"gitdown\":\"x\",\"a\":\"\x7d".toList, by decide, Or.inl rfl⟩

/-- C1: on a document with helper weights 2 and 10, the minimum weight is
taken from the default string-comparing sort, so the weight-10 helper executes
in the first round while the weight-2 directive stays unexecuted — refuting
numeric priority selection on weights with different digit counts. -/
theorem lexicographic_weight_selection_eval :
    sortWeights [2, 10] = [10, 2]
    ∧ (oneRound jpAB hsDigits textAB).map stateView
      = .ok (placeholder 1 ++ " B".toList,
          [(1, some "a", false), (2, some "b", true)], true, 2) := ⟨rfl, rfl⟩

/-- The text `play` returns on the document whose last round emits a fresh
directive block. -/
def mdEmitFinal : List Char := "A <<\x7b\"gitdown\":\"a\"\x7d>>".toList

/-- C3: when the last round's helper output introduces a new directive block
after a scan that found nothing new, `play` stops without rescanning that
output, returning a text that still contains a directive block — the
fixpoint check uses the pre-round scan's change flag. -/
theorem emitted_directive_left_unexpanded_eval :
    runView (playAux jpAB hsEmit 2 textAB [] 0)
      = some (.ok (mdEmitFinal, [(1, some "a", true), (2, some "b", true)], false, 2))
    ∧ hasMatch mdEmitFinal = true := ⟨rfl, by decide⟩

/-- C10: calling `Gitdown` as a plain function takes the non-constructor
branch of line 16, which reads the undeclared identifier `input` and therefore
throws a ReferenceError for every input; no usable instance is ever
constructed. -/
theorem plain_call_throws_reference_error (gfm : String) :
    gitdownPlainCall gfm = .thrown "input"
    ∧ ∀ v, gitdownPlainCall gfm ≠ .instanceMade v := by
  refine ⟨rfl, fun v h => ?_⟩
  rw [show gitdownPlainCall gfm = CallOutcome.thrown "input" from rfl] at h
  exact CallOutcome.noConfusion h
